import Mathlib

/-! # quant-feed-engine: `feed_engine.cpp`

A shallow embedding of the tick generator, the dispatcher and the driver loop of
`src/feed_engine.cpp`, together with the properties of the specification.

* `double` is modelled by `Double`: IEEE-754 binary64 with round-to-nearest,
  ties-to-even.  A finite value is stored as the integer number of units of `2^-1074`
  (the smallest subnormal), so every finite binary64 value has exactly one
  representative and `+`, `-`, `*` are the exact integer operation followed by one
  rounding to 53 significant bits.
* The standard library (the random engine, the distribution, the stream formatting of
  `double` and `long long`) and the clock are parameters of the model.
-/

set_option exponentiation.threshold 4096
set_option maxRecDepth 8000

namespace FeedEngine

/-! ## IEEE-754 binary64 -/

/-- A binary64 value.  `finite n` denotes `n * 2^-1074`; the sign of zero is not
tracked (it is invisible to `==`, `<`, `<=`, `+`, `-` on the values used here). -/
inductive Double where
  | finite (n : Int)
  | inf (neg : Bool)
  | nan
  deriving DecidableEq

/-- Number of binary digits of `a`, counted by dropping 64 low bits at a time while `a`
has more than 64 bits and one bit at a time afterwards; `fuel` bounds the number of
steps. -/
def bitLengthAux : Nat → Nat → Nat
  | 0, _ => 0
  | fuel + 1, a =>
      if a = 0 then 0
      else if a < 2 ^ 64 then bitLengthAux fuel (a / 2) + 1
      else bitLengthAux fuel (a / 2 ^ 64) + 64

/-- Number of binary digits of `a` (`0` for `a = 0`). -/
def bitLength (a : Nat) : Nat := bitLengthAux a a

/-- Round the magnitude `p / 2^k` (in units of `2^-1074`) to the nearest magnitude with
at most 53 significant bits that is a whole number of units, ties to even.  The result
is again in units of `2^-1074`. -/
def roundMag (p k : Nat) : Nat :=
  let s := max (bitLength p - 53) k
  let q := p / 2 ^ s
  let r := p % 2 ^ s
  let q1 := if 2 ^ s < 2 * r ∨ (2 * r = 2 ^ s ∧ q % 2 = 1) then q + 1 else q
  q1 * 2 ^ (s - k)

/-- The binary64 value nearest to the exact value `n / 2^k` units: rounding, then
overflow to an infinity when the rounded magnitude reaches `2^1024`. -/
def roundExact (n : Int) (k : Nat) : Double :=
  let m := roundMag n.natAbs k
  if 2 ^ 2098 ≤ m then Double.inf (decide (n < 0))
  else Double.finite (if n < 0 then -(m : Int) else (m : Int))

/-- Whether a `Double` is a genuine binary64 value: a finite one has at most 53
significant bits and magnitude below `2^1024`. -/
def isDouble : Double → Bool
  | Double.finite n =>
      decide (n.natAbs % 2 ^ (bitLength n.natAbs - 53) = 0) && decide (n.natAbs < 2 ^ 2098)
  | _ => true

/-- Unary minus. -/
def fneg : Double → Double
  | Double.finite n => Double.finite (-n)
  | Double.inf s => Double.inf (!s)
  | Double.nan => Double.nan

/-- Binary64 addition `x + y`. -/
def fadd : Double → Double → Double
  | Double.finite a, Double.finite b => roundExact (a + b) 0
  | Double.finite _, Double.inf t => Double.inf t
  | Double.inf s, Double.finite _ => Double.inf s
  | Double.inf s, Double.inf t => if s = t then Double.inf s else Double.nan
  | _, _ => Double.nan

/-- Binary64 subtraction `x - y`. -/
def fsub (x y : Double) : Double := fadd x (fneg y)

/-- Binary64 multiplication `x * y`. -/
def fmul : Double → Double → Double
  | Double.finite a, Double.finite b => roundExact (a * b) 1074
  | Double.finite a, Double.inf t =>
      if a = 0 then Double.nan else Double.inf (xor (decide (a < 0)) t)
  | Double.inf s, Double.finite b =>
      if b = 0 then Double.nan else Double.inf (xor s (decide (b < 0)))
  | Double.inf s, Double.inf t => Double.inf (xor s t)
  | _, _ => Double.nan

/-- The comparison `x <= y` (false when either side is a NaN). -/
def fle : Double → Double → Bool
  | Double.finite a, Double.finite b => decide (a ≤ b)
  | Double.finite _, Double.inf t => !t
  | Double.inf s, Double.finite _ => s
  | Double.inf s, Double.inf t => s || !t
  | _, _ => false

/-- The comparison `x < y` (false when either side is a NaN). -/
def flt : Double → Double → Bool
  | Double.finite a, Double.finite b => decide (a < b)
  | Double.finite _, Double.inf t => !t
  | Double.inf s, Double.finite _ => s
  | Double.inf s, Double.inf t => s && !t
  | _, _ => false

/-- The comparison `x == y` (false when either side is a NaN). -/
def feq : Double → Double → Bool
  | Double.finite a, Double.finite b => decide (a = b)
  | Double.inf s, Double.inf t => decide (s = t)
  | _, _ => false

/-- Whether the value is finite. -/
def Double.isFinite : Double → Bool
  | Double.finite _ => true
  | _ => false

/-- The rational number a finite value denotes (`0` for infinities and NaN). -/
def Double.toRat : Double → ℚ
  | Double.finite n => (n : ℚ) / 2 ^ 1074
  | _ => 0

/-- The binary64 value `m * 2^e * 2^-1074`, for literals that are exactly representable. -/
def Double.ofScaled (m e : Nat) : Double := Double.finite (Int.ofNat (m * 2 ^ e))

/-- The literal `6800.0`. -/
def d6800 : Double := Double.ofScaled 6800 1074

/-- The literal `6900.0`. -/
def d6900 : Double := Double.ofScaled 6900 1074

/-- The literal `0.25`. -/
def d0_25 : Double := Double.ofScaled 1 1072

/-- The value `0.5`. -/
def d0_5 : Double := Double.ofScaled 1 1073

/-- The value `0.0`. -/
def d0 : Double := Double.finite 0

/-- The value `1.0`. -/
def d1 : Double := Double.ofScaled 1 1074

/-- The value `100.0`. -/
def d100 : Double := Double.ofScaled 100 1074

/-- The value `6800 + 100 * u` in binary64 arithmetic: what a uniform distribution over
`(6800.0, 6900.0)` returns for the canonical draw `u`. -/
def scaled_draw (u : Double) : Double := fadd d6800 (fmul d100 u)

/-! ## The program -/

/-- The struct `Tick`. -/
structure Tick where
  bid : Double
  ask : Double
  last : Double
  ts : Int
  deriving DecidableEq

/-- The parts of the C++ standard library the program calls, over a random-engine state
type `σ`: the constructor `std::mt19937_64 rng(seed)`, one call `dist(rng)` of a
`std::uniform_real_distribution<double> dist(a, b)` (the value drawn and the advanced
engine state), and the stream insertions of a `double` and of a `long long`. -/
structure Library (σ : Type) where
  seed : Nat → σ
  uniform_real : Double → Double → σ → Double × σ
  render : Double → String
  decimal : Int → String

/-- The state the program acts on: the function-local static engine `rng`, the number of
clock readings taken so far, the text written to standard output, and the total
duration (in microseconds) the thread has asked to sleep. -/
structure World (σ : Type) where
  rng : σ
  reads : Nat
  out : String
  slept : Nat

/-- The state at process start: the engine as constructed by `rng(42)`, nothing read,
written or slept. -/
def World.init {σ : Type} (L : Library σ) : World σ :=
  { rng := L.seed 42, reads := 0, out := "", slept := 0 }

/-- The function `now_ns`: one reading of the clock, where `clk i` is the value the
clock returns at the `i`-th reading of the process. -/
def now_ns {σ : Type} (clk : Nat → Int) (w : World σ) : Int × World σ :=
  (clk w.reads, { w with reads := w.reads + 1 })

/-- Lines 24 to 30 of `generate_tick`: the tick built from the drawn price `px` and the
clock reading `ts`. -/
def tick_of (px : Double) (ts : Int) : Tick :=
  { bid := fsub px d0_25, ask := fadd px d0_25, last := px, ts := ts }

/-- The function `generate_tick`: draw `px = dist(rng)`, then read the clock. -/
def generate_tick {σ : Type} (L : Library σ) (clk : Nat → Int) (w : World σ) :
    Tick × World σ :=
  let d := L.uniform_real d6800 d6900 w.rng
  let c := now_ns clk { w with rng := d.2 }
  (tick_of d.1 c.1, c.2)

/-- The function `normalize_and_dispatch`: the chain of stream insertions into
`std::cout`. -/
def normalize_and_dispatch {σ : Type} (L : Library σ) (t : Tick) (w : World σ) : World σ :=
  let o := w.out ++ "SPX | "
  let o := o ++ L.render t.bid
  let o := o ++ " / "
  let o := o ++ L.render t.ask
  let o := o ++ " | "
  let o := o ++ L.render t.last
  let o := o ++ " | "
  let o := o ++ L.decimal t.ts
  let o := o ++ "\n"
  { w with out := o }

/-- The call `std::this_thread::sleep_for(std::chrono::microseconds(us))`. -/
def sleep_for {σ : Type} (us : Nat) (w : World σ) : World σ :=
  { w with slept := w.slept + us }

/-- The body of the loop of `main`, returning also the tick it generated. -/
def loop_body {σ : Type} (L : Library σ) (clk : Nat → Int) (w : World σ) : Tick × World σ :=
  let g := generate_tick L clk w
  let w1 := normalize_and_dispatch L g.1 g.2
  (g.1, sleep_for 50 w1)

/-- The first `n` iterations of the loop of `main` from the state `w`: the ticks generated,
in order, and the state reached. -/
def iterations {σ : Type} (L : Library σ) (clk : Nat → Int) : Nat → World σ → List Tick × World σ
  | 0, w => ([], w)
  | n + 1, w =>
      let b := loop_body L clk w
      let r := iterations L clk n b.2
      (b.1 :: r.1, r.2)

/-- Where control is: inside the loop of `main`, or past it. -/
inductive Control where
  | running
  | exited
  deriving DecidableEq

/-- A configuration of the process. -/
structure Config (σ : Type) where
  ctl : Control
  world : World σ

/-- The condition of `while (true)`. -/
def loop_condition : Bool := true

/-- The configuration at process start. -/
def Config.start {σ : Type} (L : Library σ) : Config σ :=
  { ctl := Control.running, world := World.init L }

/-- One step of `main`: test the loop condition and, when it holds, run the body once
and return to the test; otherwise leave the loop. -/
def main_step {σ : Type} (L : Library σ) (clk : Nat → Int) (c : Config σ) : Config σ :=
  match c.ctl with
  | Control.running =>
      if loop_condition then { ctl := Control.running, world := (loop_body L clk c.world).2 }
      else { ctl := Control.exited, world := c.world }
  | Control.exited => c

/-- The configuration after `n` steps of `main`. -/
def main_steps {σ : Type} (L : Library σ) (clk : Nat → Int) : Nat → Config σ
  | 0 => Config.start L
  | n + 1 => main_step L clk (main_steps L clk n)

/-! ## Reading the output -/

/-- The text of one output line, without its newline. -/
def line_text {σ : Type} (L : Library σ) (t : Tick) : String :=
  "SPX | " ++ L.render t.bid ++ " / " ++ L.render t.ask ++ " | " ++ L.render t.last
    ++ " | " ++ L.decimal t.ts

/-- Split a character stream at newlines: the newline-terminated lines, in order, and
the unterminated remainder.  `cur` holds the current line, reversed. -/
def split_lines : List Char → List Char → List (List Char) × List Char
  | cur, [] => ([], cur.reverse)
  | cur, c :: cs =>
      if c = '\n' then
        let r := split_lines [] cs
        (cur.reverse :: r.1, r.2)
      else split_lines (c :: cur) cs

/-- The newline-terminated lines of a text and its unterminated remainder. -/
def output_lines (s : String) : List (List Char) × List Char := split_lines [] s.data

/-- The three price fields of a tick. -/
def Tick.prices (t : Tick) : Double × Double × Double := (t.last, t.bid, t.ask)

/-- The engine state after `i` draws of the distribution, from the state `s`. -/
def engine_after {σ : Type} (L : Library σ) : Nat → σ → σ
  | 0, s => s
  | i + 1, s => engine_after L i (L.uniform_real d6800 d6900 s).2

/-- The price of the draw number `i` (counting from `0`) of a process: a function of the
library and of `i` only. -/
def nth_price {σ : Type} (L : Library σ) (i : Nat) : Double :=
  (L.uniform_real d6800 d6900 (engine_after L i (L.seed 42))).1

/-- The text of the lines of a list of ticks, each followed by a newline. -/
def rendered {σ : Type} (L : Library σ) : List Tick → String
  | [] => ""
  | t :: ts => line_text L t ++ "\n" ++ rendered L ts

/-! ## A concrete library, for running the model -/

/-- A stand-in random engine and formatting, used to evaluate the model on examples: the
engine state is a counter, the canonical draw is `u = (state mod 2^53) * 2^-53`, which
lies in `[0, 1)`, the distribution returns `a + (b - a) * u`, a `double` is rendered as
its integer part and a `long long` in decimal. -/
def sampleLibrary : Library Nat where
  seed := fun s => s
  uniform_real := fun a b s =>
    (fadd a (fmul (fsub b a) (Double.ofScaled (s % 2 ^ 53) 1021)), s * 6364136223846793005 + 1442695040888963407)
  render := fun d =>
    match d with
    | Double.finite n => toString (n / 2 ^ 1074)
    | Double.inf s => if s then "-inf" else "inf"
    | Double.nan => "nan"
  decimal := fun n => toString n

/-- A clock for examples: the `i`-th reading is `1000 * i`. -/
def sampleClock : Nat → Int := fun i => 1000 * (i : Int)

/-! ## Binary64 arithmetic on known values -/

/-- The sum `0.1 + 0.2` is the binary64 value `0.30000000000000004`, and the product
`0.1 * 0.1` is `0.010000000000000002`. -/
theorem known_values_inexact :
    fadd (Double.ofScaled 3602879701896397 1019) (Double.ofScaled 3602879701896397 1020)
      = Double.ofScaled 1351079888211149 1022 ∧
    fmul (Double.ofScaled 3602879701896397 1019) (Double.ofScaled 3602879701896397 1019)
      = Double.ofScaled 1441151880758559 1017 := by decide

/-- Ties go to the even neighbour: `2^53 + 1` is `2^53` and `2^53 + 3` is `2^53 + 4`. -/
theorem known_values_ties :
    fadd (Double.ofScaled 1 1127) d1 = Double.ofScaled 1 1127 ∧
    fadd (Double.ofScaled 1 1127) (Double.ofScaled 3 1074) = Double.ofScaled 2251799813685249 1076
    := by decide

/-- The range ends: doubling the largest finite value overflows to `+inf`, halving the
smallest subnormal gives zero, and `inf - inf` is a NaN. -/
theorem known_values_limits :
    fadd (Double.ofScaled 9007199254740991 2045) (Double.ofScaled 9007199254740991 2045)
      = Double.inf false ∧
    fmul (Double.ofScaled 1 0) d0_5 = d0 ∧
    fsub (Double.inf false) (Double.inf false) = Double.nan := by decide

/-- The width `6900.0 - 6800.0` of the draw range is exactly `100.0`. -/
theorem range_width : fsub d6900 d6800 = d100 := by decide

/-- The literals denote the intended rationals. -/
theorem literal_values :
    d6800.toRat = 6800 ∧ d6900.toRat = 6900 ∧ d0_25.toRat = 1 / 4 ∧ d0_5.toRat = 1 / 2 ∧
      d1.toRat = 1 ∧ d100.toRat = 100 := by
  simp only [Double.toRat, d6800, d6900, d0_25, d0_5, d1, d100, Double.ofScaled]
  norm_num

/-! ## Binary64 arithmetic: facts -/

theorem bitLengthAux_le_iff (fuel : Nat) : ∀ (a n : Nat), a ≤ fuel →
    (bitLengthAux fuel a ≤ n ↔ a < 2 ^ n) := by
  induction fuel with
  | zero =>
      intro a n h
      have ha : a = 0 := by omega
      subst ha
      simp [bitLengthAux]
  | succ f ih =>
      intro a n h
      unfold bitLengthAux
      by_cases ha : a = 0
      · subst ha
        simp
      · rw [if_neg ha]
        by_cases hsmall : a < 2 ^ 64
        · rw [if_pos hsmall]
          cases n with
          | zero =>
              simp only [pow_zero]
              omega
          | succ m =>
              have hdiv : a / 2 ≤ f := by omega
              have := ih (a / 2) m hdiv
              rw [Nat.add_le_add_iff_right, this, pow_succ]
              omega
        · rw [if_neg hsmall]
          have hdiv : a / 2 ^ 64 ≤ f := by
            have := Nat.div_lt_self (Nat.pos_of_ne_zero ha) (show 1 < 2 ^ 64 by norm_num)
            omega
          rcases Nat.lt_or_ge n 64 with hn | hn
          · have hpow : 2 ^ n < 2 ^ 64 := Nat.pow_lt_pow_right (by norm_num) hn
            constructor
            · intro h; omega
            · intro h; omega
          · obtain ⟨m, rfl⟩ := Nat.exists_eq_add_of_le hn
            have := ih (a / 2 ^ 64) m hdiv
            rw [Nat.add_comm 64 m, Nat.add_le_add_iff_right, this, pow_add,
              Nat.div_lt_iff_lt_mul (Nat.two_pow_pos 64)]

theorem bitLength_le_iff (a n : Nat) : bitLength a ≤ n ↔ a < 2 ^ n :=
  bitLengthAux_le_iff a a n (le_refl a)

theorem bitLength_eq {a b : Nat} (h1 : 2 ^ b ≤ a) (h2 : a < 2 ^ (b + 1)) :
    bitLength a = b + 1 := by
  have hle : bitLength a ≤ b + 1 := (bitLength_le_iff a (b + 1)).2 h2
  have hnle : ¬ bitLength a ≤ b := fun h => by
    have := (bitLength_le_iff a b).1 h
    omega
  omega

theorem bitLength_aligned {c : Nat} (s : Nat) (h1 : 2 ^ 52 ≤ c) (h2 : c < 2 ^ 53) :
    bitLength (c * 2 ^ s) = 53 + s := by
  have hs : 0 < 2 ^ s := Nat.two_pow_pos _
  have e : 53 + s = (52 + s) + 1 := by omega
  rw [e]
  apply bitLength_eq
  · rw [pow_add]
    exact Nat.mul_le_mul_right _ h1
  · rw [← e, pow_add]
    exact Nat.mul_lt_mul_of_pos_right h2 hs

/-- A magnitude with no bits below its 53 leading ones is left unchanged by rounding. -/
theorem roundMag_of_mod_eq_zero {p : Nat} (h : p % 2 ^ (bitLength p - 53) = 0) :
    roundMag p 0 = p := by
  unfold roundMag
  have hs : 0 < 2 ^ (bitLength p - 53) := Nat.two_pow_pos _
  simp only [Nat.max_zero, Nat.sub_zero, h, Nat.mul_zero]
  rw [if_neg]
  · exact Nat.div_mul_cancel (Nat.dvd_of_mod_eq_zero h)
  · rintro (h1 | ⟨h1, _⟩) <;> omega

theorem mod_aligned {c : Nat} (s : Nat) (h1 : 2 ^ 52 ≤ c) (h2 : c < 2 ^ 53) :
    (c * 2 ^ s) % 2 ^ (bitLength (c * 2 ^ s) - 53) = 0 := by
  rw [bitLength_aligned s h1 h2, Nat.add_sub_cancel_left]
  exact Nat.mul_mod_left c (2 ^ s)

/-- Rounding a non-negative integer number of units that has the form `c * 2^s` with a
53-bit `c` returns it unchanged. -/
theorem roundExact_aligned {c : Nat} (s : Nat) (h1 : 2 ^ 52 ≤ c) (h2 : c < 2 ^ 53)
    (hs : s ≤ 2045) : roundExact ((c * 2 ^ s : Nat) : Int) 0 = Double.finite ((c * 2 ^ s : Nat) : Int) := by
  unfold roundExact
  have hlt : c * 2 ^ s < 2 ^ 2098 := by
    calc c * 2 ^ s < 2 ^ 53 * 2 ^ s := Nat.mul_lt_mul_of_pos_right h2 (Nat.two_pow_pos _)
      _ = 2 ^ (53 + s) := (pow_add 2 53 s).symm
      _ ≤ 2 ^ 2098 := Nat.pow_le_pow_right (by norm_num) (by omega)
  have hnn : ¬ (((c * 2 ^ s : Nat) : Int) < 0) := by omega
  simp only [Int.natAbs_ofNat, roundMag_of_mod_eq_zero (mod_aligned s h1 h2), if_neg hnn]
  rw [if_neg (by omega)]

/-- A finite binary64 value in the binade `[2^(52+s), 2^(53+s))` units is a multiple of
`2^s` units. -/
theorem dvd_of_isDouble {a : Nat} (s : Nat) (hd : isDouble (Double.finite (a : Int)) = true)
    (h1 : 2 ^ (52 + s) ≤ a) (h2 : a < 2 ^ (53 + s)) : 2 ^ s ∣ a := by
  have hb : bitLength a = 53 + s := by
    rw [show 53 + s = 52 + s + 1 by omega]
    exact bitLength_eq h1 (by rw [show 52 + s + 1 = 53 + s by omega]; exact h2)
  simp only [isDouble, Int.natAbs_ofNat, Bool.and_eq_true, decide_eq_true_eq] at hd
  have := hd.1
  rw [hb, Nat.add_sub_cancel_left] at this
  exact Nat.dvd_of_mod_eq_zero this

/-! ## Prices in the draw range -/

/-- Every binary64 value in `[6800.0, 6900.0]` is `c * 2^-40` for an integer `c`. -/
theorem price_form {px : Double} (hd : isDouble px = true) (hlo : fle d6800 px = true)
    (hhi : fle px d6900 = true) :
    ∃ c : Nat, 6800 * 2 ^ 40 ≤ c ∧ c ≤ 6900 * 2 ^ 40 ∧
      px = Double.finite ((c * 2 ^ 1034 : Nat) : Int) := by
  cases px with
  | finite n =>
      simp only [fle, d6800, d6900, Double.ofScaled, decide_eq_true_eq, Int.ofNat_eq_coe] at hlo hhi
      have hn : 0 ≤ n := le_trans (Int.ofNat_nonneg _) hlo
      obtain ⟨a, rfl⟩ := Int.eq_ofNat_of_zero_le hn
      have hlo1 : 6800 * 2 ^ 1074 ≤ a := by exact_mod_cast hlo
      have hhi1 : a ≤ 6900 * 2 ^ 1074 := by exact_mod_cast hhi
      have e1 : (6800 : Nat) * 2 ^ 1074 = 6800 * 2 ^ 40 * 2 ^ 1034 := by
        rw [Nat.mul_assoc, ← pow_add]
      have e2 : (6900 : Nat) * 2 ^ 1074 = 6900 * 2 ^ 40 * 2 ^ 1034 := by
        rw [Nat.mul_assoc, ← pow_add]
      have hpos : 0 < 2 ^ 1034 := Nat.two_pow_pos _
      have b1 : 2 ^ (52 + 1034) ≤ a := by
        refine le_trans ?_ hlo1
        rw [e1, pow_add]
        exact Nat.mul_le_mul_right _ (by norm_num)
      have b2 : a < 2 ^ (53 + 1034) := by
        refine lt_of_le_of_lt hhi1 ?_
        rw [e2, pow_add]
        exact Nat.mul_lt_mul_of_pos_right (by norm_num) hpos
      obtain ⟨c, hc⟩ := dvd_of_isDouble 1034 hd b1 b2
      refine ⟨c, ?_, ?_, ?_⟩
      · rw [hc, e1, Nat.mul_comm (2 ^ 1034) c] at hlo1
        exact Nat.le_of_mul_le_mul_right hlo1 hpos
      · rw [hc, e2, Nat.mul_comm (2 ^ 1034) c] at hhi1
        exact Nat.le_of_mul_le_mul_right hhi1 hpos
      · rw [hc, Nat.mul_comm]
  | inf s => cases s <;> simp [fle, d6800, d6900, Double.ofScaled] at hlo hhi
  | nan => simp [fle, d6800, Double.ofScaled] at hlo

/-- Subtracting `0.25` from `c * 2^-40` in the draw range is exact. -/
theorem fsub_quarter {c : Nat} (h1 : 6800 * 2 ^ 40 ≤ c) (h2 : c ≤ 6900 * 2 ^ 40) :
    fsub (Double.finite ((c * 2 ^ 1034 : Nat) : Int)) d0_25
      = Double.finite (((c - 2 ^ 38) * 2 ^ 1034 : Nat) : Int) := by
  have e : (1 : Nat) * 2 ^ 1072 = 2 ^ 38 * 2 ^ 1034 := by rw [Nat.one_mul, ← pow_add]
  have hsum : ((c * 2 ^ 1034 : Nat) : Int) + -((1 * 2 ^ 1072 : Nat) : Int)
      = (((c - 2 ^ 38) * 2 ^ 1034 : Nat) : Int) := by
    rw [e, Nat.sub_mul, Nat.cast_sub (Nat.mul_le_mul_right _ (by omega))]
    ring
  simp only [fsub, d0_25, Double.ofScaled, fneg, fadd, Int.ofNat_eq_coe]
  rw [hsum]
  exact roundExact_aligned 1034 (by omega) (by omega) (by norm_num)

/-- Adding `0.25` to `c * 2^-40` in the draw range is exact. -/
theorem fadd_quarter {c : Nat} (h1 : 6800 * 2 ^ 40 ≤ c) (h2 : c ≤ 6900 * 2 ^ 40) :
    fadd (Double.finite ((c * 2 ^ 1034 : Nat) : Int)) d0_25
      = Double.finite (((c + 2 ^ 38) * 2 ^ 1034 : Nat) : Int) := by
  have e : (1 : Nat) * 2 ^ 1072 = 2 ^ 38 * 2 ^ 1034 := by rw [Nat.one_mul, ← pow_add]
  have hsum : ((c * 2 ^ 1034 : Nat) : Int) + ((1 * 2 ^ 1072 : Nat) : Int)
      = (((c + 2 ^ 38) * 2 ^ 1034 : Nat) : Int) := by
    rw [e, Nat.add_mul]
    push_cast
    ring
  simp only [d0_25, Double.ofScaled, fadd, Int.ofNat_eq_coe]
  rw [hsum]
  exact roundExact_aligned 1034 (by omega) (by omega) (by norm_num)

/-- The difference of the two exact neighbours is exactly `0.5`. -/
theorem fsub_ask_bid {c : Nat} (h1 : 6800 * 2 ^ 40 ≤ c) :
    fsub (Double.finite (((c + 2 ^ 38) * 2 ^ 1034 : Nat) : Int))
        (Double.finite (((c - 2 ^ 38) * 2 ^ 1034 : Nat) : Int)) = d0_5 := by
  have hsum : (((c + 2 ^ 38) * 2 ^ 1034 : Nat) : Int) + -(((c - 2 ^ 38) * 2 ^ 1034 : Nat) : Int)
      = ((2 ^ 52 * 2 ^ 1021 : Nat) : Int) := by
    have e : (2 : Nat) ^ 52 * 2 ^ 1021 = (2 ^ 38 + 2 ^ 38) * 2 ^ 1034 := by
      rw [← Nat.two_mul, ← pow_succ', ← pow_add, ← pow_add]
    rw [e, Nat.cast_mul, Nat.cast_mul, Nat.cast_mul, Nat.cast_sub (by omega)]
    push_cast
    ring
  simp only [fsub, fneg, fadd]
  rw [hsum, roundExact_aligned 1021 (le_refl _) (by norm_num) (by norm_num)]
  simp only [d0_5, Double.ofScaled, Int.ofNat_eq_coe, Nat.one_mul, ← pow_add]

/-! ## Rounding is monotone across binary64 values -/

/-- No binary64 magnitude lies strictly between two neighbours `q * 2^e` and
`(q + 1) * 2^e` with a 53-bit `q`. -/
theorem no_double_between {D q e : Nat} (hD : D % 2 ^ (bitLength D - 53) = 0)
    (hq1 : 2 ^ 52 ≤ q) (hq2 : q < 2 ^ 53) (h1 : q * 2 ^ e < D) (h2 : D < (q + 1) * 2 ^ e) :
    False := by
  have hpos : 0 < 2 ^ e := Nat.two_pow_pos e
  have b1 : 2 ^ (52 + e) ≤ D := by
    rw [pow_add]
    exact le_trans (Nat.mul_le_mul_right _ hq1) (le_of_lt h1)
  have b2 : D < 2 ^ (53 + e) := by
    rw [pow_add]
    exact lt_of_lt_of_le h2 (Nat.mul_le_mul_right _ hq2)
  have hb : bitLength D = 53 + e := by
    rw [show 53 + e = 52 + e + 1 by omega]
    exact bitLength_eq b1 (by rw [show 52 + e + 1 = 53 + e by omega]; exact b2)
  rw [hb, Nat.add_sub_cancel_left] at hD
  obtain ⟨d, rfl⟩ := Nat.dvd_of_mod_eq_zero hD
  rw [Nat.mul_comm (2 ^ e) d] at h1 h2
  have l1 : q < d := Nat.lt_of_mul_lt_mul_right h1
  have l2 : d < q + 1 := Nat.lt_of_mul_lt_mul_right h2
  omega

/-- The quotient kept by `roundMag` has exactly 53 bits when the shift is forced by the
bit length. -/
theorem quotient_bounds {p k s : Nat} (hs : max (bitLength p - 53) k = s) (hsk : s ≠ k) :
    2 ^ 52 ≤ p / 2 ^ s ∧ p / 2 ^ s < 2 ^ 53 := by
  have hk : k ≤ s := by rw [← hs]; exact le_max_right _ _
  have hs1 : s = bitLength p - 53 := by
    rw [← hs, max_def]
    split_ifs with h
    · exfalso
      rw [max_eq_right h] at hs
      exact hsk hs.symm
    · rfl
  have hbl : bitLength p = s + 53 := by omega
  have hpos : 0 < 2 ^ s := Nat.two_pow_pos s
  constructor
  · rw [Nat.le_div_iff_mul_le hpos, ← pow_add]
    by_contra hcon
    have := (bitLength_le_iff p (52 + s)).2 (by omega)
    omega
  · rw [Nat.div_lt_iff_lt_mul hpos, ← pow_add]
    exact (bitLength_le_iff p (53 + s)).1 (by omega)

/-- Rounding never crosses a binary64 value from below: if the exact value is at most a
binary64 magnitude `D`, so is the rounded one. -/
theorem roundMag_le {p k D : Nat} (hD : D % 2 ^ (bitLength D - 53) = 0) (h : p ≤ D * 2 ^ k) :
    roundMag p k ≤ D := by
  unfold roundMag
  generalize hs : max (bitLength p - 53) k = s
  have hk : k ≤ s := by rw [← hs]; exact le_max_right _ _
  have hE : 2 ^ s = 2 ^ (s - k) * 2 ^ k := by rw [← pow_add]; congr 1; omega
  have hdm := Nat.div_add_mod p (2 ^ s)
  have hr := Nat.mod_lt p (Nat.two_pow_pos s)
  have hpos : 0 < 2 ^ k := Nat.two_pow_pos k
  have hqs : p / 2 ^ s * 2 ^ (s - k) * 2 ^ k = 2 ^ s * (p / 2 ^ s) := by
    rw [Nat.mul_assoc, ← hE, Nat.mul_comm]
  simp only []
  split_ifs with hc
  · have hrpos : 0 < p % 2 ^ s := by
      rcases hc with h1 | ⟨h1, _⟩ <;> omega
    have hlt : p / 2 ^ s * 2 ^ (s - k) < D := by
      apply Nat.lt_of_mul_lt_mul_right (a := 2 ^ k)
      rw [hqs]
      omega
    by_cases hsk : s = k
    · subst hsk
      simp only [Nat.sub_self, pow_zero, Nat.mul_one] at hlt ⊢
      omega
    · obtain ⟨hq1, hq2⟩ := quotient_bounds hs hsk
      by_contra hcon
      exact no_double_between hD hq1 hq2 hlt (not_le.1 hcon)
  · apply Nat.le_of_mul_le_mul_right (c := 2 ^ k) _ hpos
    rw [hqs]
    omega

/-- Rounding never crosses a binary64 value from above: if the exact value is at least a
binary64 magnitude `D`, so is the rounded one. -/
theorem le_roundMag {p k D : Nat} (hD : D % 2 ^ (bitLength D - 53) = 0) (h : D * 2 ^ k ≤ p) :
    D ≤ roundMag p k := by
  unfold roundMag
  generalize hs : max (bitLength p - 53) k = s
  have hk : k ≤ s := by rw [← hs]; exact le_max_right _ _
  have hE : 2 ^ s = 2 ^ (s - k) * 2 ^ k := by rw [← pow_add]; congr 1; omega
  have hdm := Nat.div_add_mod p (2 ^ s)
  have hr := Nat.mod_lt p (Nat.two_pow_pos s)
  have hpos : 0 < 2 ^ k := Nat.two_pow_pos k
  have hpos2 : 0 < 2 ^ (s - k) := Nat.two_pow_pos _
  have hq : D ≤ p / 2 ^ s * 2 ^ (s - k) := by
    by_cases hsk : s = k
    · subst hsk
      simp only [Nat.sub_self, pow_zero, Nat.mul_one]
      exact (Nat.le_div_iff_mul_le hpos).2 h
    · obtain ⟨hq1, hq2⟩ := quotient_bounds hs hsk
      by_contra hcon
      have hlt : D < (p / 2 ^ s + 1) * 2 ^ (s - k) := by
        apply Nat.lt_of_mul_lt_mul_right (a := 2 ^ k)
        rw [Nat.mul_assoc, ← hE, Nat.add_mul, Nat.mul_comm (p / 2 ^ s)]
        omega
      exact no_double_between hD hq1 hq2 (not_le.1 hcon) hlt
  simp only []
  split_ifs with hc
  · exact le_trans hq (Nat.mul_le_mul_right _ (Nat.le_succ _))
  · exact hq

/-- The result of rounding is a binary64 magnitude. -/
theorem roundMag_mod (p k : Nat) :
    roundMag p k % 2 ^ (bitLength (roundMag p k) - 53) = 0 := by
  have key : ∀ q e : Nat, q ≤ 2 ^ 53 → (q * 2 ^ e) % 2 ^ (bitLength (q * 2 ^ e) - 53) = 0 := by
    intro q e hq
    apply Nat.mod_eq_zero_of_dvd
    rcases Nat.lt_or_ge q (2 ^ 53) with hlt | hge
    · have hb : bitLength (q * 2 ^ e) ≤ 53 + e := by
        rw [bitLength_le_iff, pow_add]
        exact Nat.mul_lt_mul_of_pos_right hlt (Nat.two_pow_pos e)
      exact Dvd.dvd.mul_left (Nat.pow_dvd_pow 2 (by omega)) q
    · have hq53 : q = 2 ^ 53 := le_antisymm hq hge
      subst hq53
      rw [← pow_add]
      apply Nat.pow_dvd_pow
      have hb : bitLength (2 ^ (53 + e)) ≤ 53 + e + 1 := by
        rw [bitLength_le_iff]
        exact Nat.pow_lt_pow_right (by norm_num) (by omega)
      omega
  unfold roundMag
  generalize hs : max (bitLength p - 53) k = s
  have hq2 : p / 2 ^ s < 2 ^ 53 := by
    rw [Nat.div_lt_iff_lt_mul (Nat.two_pow_pos s), ← pow_add]
    apply (bitLength_le_iff p (53 + s)).1
    have : bitLength p - 53 ≤ s := by rw [← hs]; exact le_max_left _ _
    omega
  simp only []
  split_ifs with hc
  · exact key _ _ (by omega)
  · exact key _ _ (by omega)

/-- Rounding a non-negative exact value that does not overflow. -/
theorem roundExact_natCast {p k : Nat} (h : roundMag p k < 2 ^ 2098) :
    roundExact (p : Int) k = Double.finite (roundMag p k : Int) := by
  unfold roundExact
  have hnn : ¬ ((p : Int) < 0) := by omega
  simp only [Int.natAbs_ofNat, if_neg hnn]
  rw [if_neg (by omega)]

/-- Every result of rounding is a binary64 value. -/
theorem isDouble_roundExact (n : Int) (k : Nat) : isDouble (roundExact n k) = true := by
  unfold roundExact
  simp only []
  split_ifs with h1 h2
  · rfl
  · simp only [isDouble, Int.natAbs_neg, Int.natAbs_ofNat, Bool.and_eq_true, decide_eq_true_eq]
    exact ⟨roundMag_mod _ _, by omega⟩
  · simp only [isDouble, Int.natAbs_ofNat, Bool.and_eq_true, decide_eq_true_eq]
    exact ⟨roundMag_mod _ _, by omega⟩

theorem mod_6800 : (6800 * 2 ^ 1074) % 2 ^ (bitLength (6800 * 2 ^ 1074) - 53) = 0 := by
  have e : (6800 : Nat) * 2 ^ 1074 = 6800 * 2 ^ 40 * 2 ^ 1034 := by rw [Nat.mul_assoc, ← pow_add]
  rw [e]
  exact mod_aligned 1034 (by norm_num) (by norm_num)

theorem mod_6900 : (6900 * 2 ^ 1074) % 2 ^ (bitLength (6900 * 2 ^ 1074) - 53) = 0 := by
  have e : (6900 : Nat) * 2 ^ 1074 = 6900 * 2 ^ 40 * 2 ^ 1034 := by rw [Nat.mul_assoc, ← pow_add]
  rw [e]
  exact mod_aligned 1034 (by norm_num) (by norm_num)

theorem mod_100 : (100 * 2 ^ 1074) % 2 ^ (bitLength (100 * 2 ^ 1074) - 53) = 0 := by
  have e : (100 : Nat) * 2 ^ 1074 = 100 * 2 ^ 46 * 2 ^ 1028 := by rw [Nat.mul_assoc, ← pow_add]
  rw [e]
  exact mod_aligned 1028 (by norm_num) (by norm_num)

theorem lt_overflow_of_le_6900 {m : Nat} (h : m ≤ 6900 * 2 ^ 1074) : m < 2 ^ 2098 := by
  refine lt_of_le_of_lt h ?_
  rw [show 2098 = 1024 + 1074 by norm_num, pow_add]
  exact Nat.mul_lt_mul_of_pos_right (by norm_num) (Nat.two_pow_pos _)

/-- The product `100.0 * u` for a canonical `u` in `[0, 1)` is a finite value in
`[0, 100]`. -/
theorem fmul_100_canonical {a : Nat} (h : a < 2 ^ 1074) :
    ∃ m : Nat, m ≤ 100 * 2 ^ 1074 ∧ fmul d100 (Double.finite (a : Int)) = Double.finite (m : Int) := by
  have hm : roundMag (100 * 2 ^ 1074 * a) 1074 ≤ 100 * 2 ^ 1074 :=
    roundMag_le mod_100 (Nat.mul_le_mul_left _ (le_of_lt h))
  refine ⟨roundMag (100 * 2 ^ 1074 * a) 1074, hm, ?_⟩
  simp only [fmul, d100, Double.ofScaled, Int.ofNat_eq_coe]
  rw [← Nat.cast_mul]
  exact roundExact_natCast (lt_overflow_of_le_6900 (le_trans hm (Nat.mul_le_mul_right _ (by norm_num))))

/-- The sum `6800.0 + x` for a finite `x` in `[0, 100]` is a binary64 value in
`[6800, 6900]`. -/
theorem fadd_6800_range {m : Nat} (h : m ≤ 100 * 2 ^ 1074) :
    isDouble (fadd d6800 (Double.finite (m : Int))) = true ∧
      fle d6800 (fadd d6800 (Double.finite (m : Int))) = true ∧
      fle (fadd d6800 (Double.finite (m : Int))) d6900 = true := by
  have hlo : 6800 * 2 ^ 1074 ≤ roundMag (6800 * 2 ^ 1074 + m) 0 :=
    le_roundMag mod_6800 (by rw [pow_zero, Nat.mul_one]; exact Nat.le_add_right _ _)
  have hhi : roundMag (6800 * 2 ^ 1074 + m) 0 ≤ 6900 * 2 ^ 1074 :=
    roundMag_le mod_6900 (by rw [pow_zero, Nat.mul_one]; omega)
  have e : fadd d6800 (Double.finite (m : Int))
      = Double.finite (roundMag (6800 * 2 ^ 1074 + m) 0 : Int) := by
    simp only [fadd, d6800, Double.ofScaled, Int.ofNat_eq_coe]
    rw [← Nat.cast_add]
    exact roundExact_natCast (lt_overflow_of_le_6900 hhi)
  refine ⟨?_, ?_, ?_⟩
  · simp only [fadd]
    exact isDouble_roundExact _ _
  · rw [e]
    simp only [fle, d6800, Double.ofScaled, Int.ofNat_eq_coe, decide_eq_true_eq]
    exact_mod_cast hlo
  · rw [e]
    simp only [fle, d6900, Double.ofScaled, Int.ofNat_eq_coe, decide_eq_true_eq]
    exact_mod_cast hhi

/-- For a canonical draw `u` in `[0, 1)` the value `6800 + 100 * u`, computed in binary64
arithmetic, is a binary64 value in the closed interval `[6800, 6900]`. -/
theorem scaled_draw_range {u : Double} (h0 : fle d0 u = true) (h1 : flt u d1 = true) :
    isDouble (scaled_draw u) = true ∧ fle d6800 (scaled_draw u) = true ∧
      fle (scaled_draw u) d6900 = true := by
  cases u with
  | finite n =>
      simp only [fle, d0, decide_eq_true_eq] at h0
      obtain ⟨a, rfl⟩ := Int.eq_ofNat_of_zero_le h0
      simp only [flt, d1, Double.ofScaled, Int.ofNat_eq_coe, decide_eq_true_eq, Nat.one_mul] at h1
      have ha : a < 2 ^ 1074 := by exact_mod_cast h1
      obtain ⟨m, hm, hmul⟩ := fmul_100_canonical ha
      unfold scaled_draw
      rw [hmul]
      exact fadd_6800_range hm
  | inf s => cases s <;> simp [fle, flt, d0, d1, Double.ofScaled] at h0 h1
  | nan => simp [fle, d0] at h0

/-! ## The tick built from a price in the draw range -/

theorem toRat_scaled (c : Nat) :
    (Double.finite ((c * 2 ^ 1034 : Nat) : Int)).toRat = (c : ℚ) / 2 ^ 40 := by
  have hB : ((2 : ℚ) ^ 1034) ≠ 0 := pow_ne_zero _ (by norm_num)
  have e : (((c * 2 ^ 1034 : Nat) : Int) : ℚ) = (c : ℚ) * 2 ^ 1034 := by
    rw [Int.cast_natCast, Nat.cast_mul, Nat.cast_pow, Nat.cast_ofNat]
  simp only [Double.toRat]
  rw [e, show (1074 : Nat) = 40 + 1034 by norm_num, pow_add]
  generalize (2 : ℚ) ^ 1034 = B at hB
  field_simp
  ring

/-- The fields of the tick built from a price `c * 2^-40` of the draw range. -/
theorem tick_of_scaled {c : Nat} (h1 : 6800 * 2 ^ 40 ≤ c) (h2 : c ≤ 6900 * 2 ^ 40) (ts : Int) :
    tick_of (Double.finite ((c * 2 ^ 1034 : Nat) : Int)) ts =
      { bid := Double.finite (((c - 2 ^ 38) * 2 ^ 1034 : Nat) : Int),
        ask := Double.finite (((c + 2 ^ 38) * 2 ^ 1034 : Nat) : Int),
        last := Double.finite ((c * 2 ^ 1034 : Nat) : Int),
        ts := ts } := by
  simp only [tick_of, fsub_quarter h1 h2, fadd_quarter h1 h2]

/-- For a binary64 price in `[6800, 6900]` both offsets are exact, the spread is exactly
`0.5`, and the price lies strictly between bid and ask. -/
theorem tick_of_exact {px : Double} (hd : isDouble px = true) (hlo : fle d6800 px = true)
    (hhi : fle px d6900 = true) (ts : Int) :
    ((tick_of px ts).bid.isFinite = true ∧ (tick_of px ts).ask.isFinite = true ∧
      (tick_of px ts).bid.toRat = px.toRat - 1 / 4 ∧
      (tick_of px ts).ask.toRat = px.toRat + 1 / 4) ∧
    (fsub (tick_of px ts).ask (tick_of px ts).bid = d0_5 ∧
      feq (fsub (tick_of px ts).ask (tick_of px ts).bid) d0_5 = true) ∧
    (flt (tick_of px ts).bid px = true ∧ flt px (tick_of px ts).ask = true) := by
  obtain ⟨c, h1, h2, rfl⟩ := price_form hd hlo hhi
  rw [tick_of_scaled h1 h2]
  have hB : 0 < 2 ^ 1034 := Nat.two_pow_pos 1034
  refine ⟨⟨rfl, rfl, ?_, ?_⟩, ⟨fsub_ask_bid h1, ?_⟩, ?_, ?_⟩
  · simp only [toRat_scaled]
    rw [Nat.cast_sub (by omega)]
    push_cast
    ring
  · simp only [toRat_scaled]
    push_cast
    ring
  · rw [fsub_ask_bid h1]
    simp [feq, d0_5, Double.ofScaled]
  · simp only [flt, decide_eq_true_eq]
    exact_mod_cast Nat.mul_lt_mul_of_pos_right (show c - 2 ^ 38 < c by omega) hB
  · simp only [flt, decide_eq_true_eq]
    exact_mod_cast Nat.mul_lt_mul_of_pos_right (show c < c + 2 ^ 38 by omega) hB

theorem fle_of_flt {x y : Double} (h : flt x y = true) : fle x y = true := by
  cases x <;> cases y <;> simp_all [flt, fle]
  omega

theorem feq_false_of_flt {x y : Double} (h : flt x y = true) : feq x y = false := by
  cases x <;> cases y <;> simp_all [flt, feq]
  omega

theorem generate_tick_fst {σ : Type} (L : Library σ) (clk : Nat → Int) (w : World σ) :
    (generate_tick L clk w).1 = tick_of (L.uniform_real d6800 d6900 w.rng).1 (clk w.reads) := rfl

theorem generate_tick_snd {σ : Type} (L : Library σ) (clk : Nat → Int) (w : World σ) :
    (generate_tick L clk w).2 =
      { w with rng := (L.uniform_real d6800 d6900 w.rng).2, reads := w.reads + 1 } := rfl

theorem endpoints_facts :
    (isDouble d6800 = true ∧ fle d6800 d6800 = true ∧ fle d6800 d6900 = true) ∧
    (isDouble d6900 = true ∧ fle d6900 d6900 = true) := by decide

/-! ## Claims about `generate_tick` -/

/-- Claim C1: for every price `px` that `generate_tick` can draw, that is every binary64 value in
`[6800.0, 6900.0]`, the computed `bid = px - 0.25` and `ask = px + 0.25` incur no rounding
(both are finite and denote exactly `px - 1/4` and `px + 1/4`), and `ask - bid` is
exactly `0.5`: the binary64 difference is the value `0.5`, `ask - bid == 0.5` holds, and
the exact difference of the two values is `1/2`. -/
theorem spread_exact {σ : Type} (L : Library σ) (clk : Nat → Int) (w : World σ) (px : Double)
    (hpx : (L.uniform_real d6800 d6900 w.rng).1 = px)
    (hd : isDouble px = true) (hlo : fle d6800 px = true) (hhi : fle px d6900 = true) :
    ((generate_tick L clk w).1.bid.isFinite = true ∧
      (generate_tick L clk w).1.ask.isFinite = true ∧
      (generate_tick L clk w).1.bid.toRat = px.toRat - 1 / 4 ∧
      (generate_tick L clk w).1.ask.toRat = px.toRat + 1 / 4) ∧
    fsub (generate_tick L clk w).1.ask (generate_tick L clk w).1.bid = d0_5 ∧
    feq (fsub (generate_tick L clk w).1.ask (generate_tick L clk w).1.bid) d0_5 = true ∧
    (generate_tick L clk w).1.ask.toRat - (generate_tick L clk w).1.bid.toRat = 1 / 2 := by
  rw [generate_tick_fst, hpx]
  obtain ⟨hex, ⟨hs1, hs2⟩, _⟩ := tick_of_exact hd hlo hhi (clk w.reads)
  refine ⟨hex, hs1, hs2, ?_⟩
  rw [hex.2.2.1, hex.2.2.2]
  ring

/-- Claim C2: for every draw `px`, the tick returned by `generate_tick` has `last = px`,
`bid = last - 0.25` and `ask = last + 0.25`; the three price fields depend on the draw of
that call only: any other call made with the same engine state, whatever the clock, the
number of earlier clock readings, the output written or the time slept, yields the same
three fields. -/
theorem price_fields {σ : Type} (L : Library σ) (clk : Nat → Int) (w : World σ) :
    (generate_tick L clk w).1.last = (L.uniform_real d6800 d6900 w.rng).1 ∧
    (generate_tick L clk w).1.bid = fsub (generate_tick L clk w).1.last d0_25 ∧
    (generate_tick L clk w).1.ask = fadd (generate_tick L clk w).1.last d0_25 ∧
    ∀ (clk2 : Nat → Int) (w2 : World σ), w2.rng = w.rng →
      (generate_tick L clk2 w2).1.last = (generate_tick L clk w).1.last ∧
      (generate_tick L clk2 w2).1.bid = (generate_tick L clk w).1.bid ∧
      (generate_tick L clk2 w2).1.ask = (generate_tick L clk w).1.ask := by
  refine ⟨rfl, rfl, rfl, ?_⟩
  intro clk2 w2 h
  simp only [generate_tick_fst, h, tick_of, and_self]

/-- Claim C3: for every generated tick (the drawn price being a binary64 value of the draw range
`[6800.0, 6900.0]`), `bid <= last <= ask`, and `bid < last < ask` strictly whenever `last`
is neither `6800.0` nor `6900.0`. -/
theorem bid_le_last_le_ask {σ : Type} (L : Library σ) (clk : Nat → Int) (w : World σ)
    (hd : isDouble (generate_tick L clk w).1.last = true)
    (hlo : fle d6800 (generate_tick L clk w).1.last = true)
    (hhi : fle (generate_tick L clk w).1.last d6900 = true) :
    fle (generate_tick L clk w).1.bid (generate_tick L clk w).1.last = true ∧
    fle (generate_tick L clk w).1.last (generate_tick L clk w).1.ask = true ∧
    ((generate_tick L clk w).1.last ≠ d6800 → (generate_tick L clk w).1.last ≠ d6900 →
      flt (generate_tick L clk w).1.bid (generate_tick L clk w).1.last = true ∧
      flt (generate_tick L clk w).1.last (generate_tick L clk w).1.ask = true) := by
  rw [generate_tick_fst] at hd hlo hhi ⊢
  obtain ⟨_, _, hb, ha⟩ := tick_of_exact hd hlo hhi (clk w.reads)
  exact ⟨fle_of_flt hb, fle_of_flt ha, fun _ _ => ⟨hb, ha⟩⟩

/-- Claim C4: given that the uniform distribution constructed with bounds `(6800.0, 6900.0)`
returns `6800 + 100 * u` for a canonical draw `u` in `[0, 1)`, the field `last` of the
generated tick is a binary64 value of the closed interval `[6800.0, 6900.0]`. -/
theorem last_in_range {σ : Type} (L : Library σ) (clk : Nat → Int) (w : World σ) (u : Double)
    (hu : (L.uniform_real d6800 d6900 w.rng).1 = scaled_draw u)
    (h0 : fle d0 u = true) (h1 : flt u d1 = true) :
    fle d6800 (generate_tick L clk w).1.last = true ∧
    fle (generate_tick L clk w).1.last d6900 = true ∧
    isDouble (generate_tick L clk w).1.last = true := by
  have h := scaled_draw_range h0 h1
  rw [generate_tick_fst, hu]
  exact ⟨h.2.1, h.2.2, h.1⟩

/-- Claim C8 fails: no generated tick whose `last` is `6800.0` or `6900.0` has `bid == last` or
`last == ask`. -/
theorem no_boundary_equality :
    ¬ ∃ (σ : Type) (L : Library σ) (clk : Nat → Int) (w : World σ),
      ((generate_tick L clk w).1.last = d6800 ∨ (generate_tick L clk w).1.last = d6900) ∧
      (feq (generate_tick L clk w).1.bid (generate_tick L clk w).1.last = true ∨
        feq (generate_tick L clk w).1.last (generate_tick L clk w).1.ask = true) := by
  rintro ⟨σ, L, clk, w, hb, he⟩
  rw [generate_tick_fst] at hb he
  have hs : flt (tick_of (L.uniform_real d6800 d6900 w.rng).1 (clk w.reads)).bid
        (L.uniform_real d6800 d6900 w.rng).1 = true ∧
      flt (L.uniform_real d6800 d6900 w.rng).1
        (tick_of (L.uniform_real d6800 d6900 w.rng).1 (clk w.reads)).ask = true := by
    have hb2 : (L.uniform_real d6800 d6900 w.rng).1 = d6800 ∨
        (L.uniform_real d6800 d6900 w.rng).1 = d6900 := hb
    rcases hb2 with h | h
    · rw [h]
      exact (tick_of_exact endpoints_facts.1.1 endpoints_facts.1.2.1 endpoints_facts.1.2.2 _).2.2
    · rw [h]
      exact (tick_of_exact endpoints_facts.2.1 endpoints_facts.1.2.2 endpoints_facts.2.2 _).2.2
  have e1 := feq_false_of_flt hs.1
  have e2 := feq_false_of_flt hs.2
  change feq (tick_of (L.uniform_real d6800 d6900 w.rng).1 (clk w.reads)).bid
      (L.uniform_real d6800 d6900 w.rng).1 = true ∨
    feq (L.uniform_real d6800 d6900 w.rng).1
      (tick_of (L.uniform_real d6800 d6900 w.rng).1 (clk w.reads)).ask = true at he
  rw [e1, e2] at he
  simp at he

/-- Claim C8, amended: for every generated tick whose `last` is exactly `6800.0` or `6900.0`,
`bid < last < ask` holds strictly, so neither `bid == last` nor `last == ask`. -/
theorem boundary_strict {σ : Type} (L : Library σ) (clk : Nat → Int) (w : World σ)
    (hb : (generate_tick L clk w).1.last = d6800 ∨ (generate_tick L clk w).1.last = d6900) :
    flt (generate_tick L clk w).1.bid (generate_tick L clk w).1.last = true ∧
    flt (generate_tick L clk w).1.last (generate_tick L clk w).1.ask = true ∧
    feq (generate_tick L clk w).1.bid (generate_tick L clk w).1.last = false ∧
    feq (generate_tick L clk w).1.last (generate_tick L clk w).1.ask = false := by
  have hs : flt (generate_tick L clk w).1.bid (generate_tick L clk w).1.last = true ∧
      flt (generate_tick L clk w).1.last (generate_tick L clk w).1.ask = true := by
    rw [generate_tick_fst] at hb ⊢
    have hb2 : (L.uniform_real d6800 d6900 w.rng).1 = d6800 ∨
        (L.uniform_real d6800 d6900 w.rng).1 = d6900 := hb
    rcases hb2 with h | h
    · rw [h]
      exact (tick_of_exact endpoints_facts.1.1 endpoints_facts.1.2.1 endpoints_facts.1.2.2 _).2.2
    · rw [h]
      exact (tick_of_exact endpoints_facts.2.1 endpoints_facts.1.2.2 endpoints_facts.2.2 _).2.2
  exact ⟨hs.1, hs.2, feq_false_of_flt hs.1, feq_false_of_flt hs.2⟩

/-! ## The dispatcher and the loop -/

theorem normalize_and_dispatch_eq {σ : Type} (L : Library σ) (t : Tick) (w : World σ) :
    normalize_and_dispatch L t w = { w with out := w.out ++ (line_text L t ++ "\n") } := by
  simp only [normalize_and_dispatch, line_text, String.append_assoc]

theorem loop_body_fst {σ : Type} (L : Library σ) (clk : Nat → Int) (w : World σ) :
    (loop_body L clk w).1 = tick_of (L.uniform_real d6800 d6900 w.rng).1 (clk w.reads) := rfl

theorem loop_body_snd {σ : Type} (L : Library σ) (clk : Nat → Int) (w : World σ) :
    (loop_body L clk w).2 =
      { rng := (L.uniform_real d6800 d6900 w.rng).2,
        reads := w.reads + 1,
        out := w.out ++ (line_text L (loop_body L clk w).1 ++ "\n"),
        slept := w.slept + 50 } := by
  simp only [loop_body, sleep_for, normalize_and_dispatch_eq, generate_tick_snd]

/-- The ticks of `n` iterations: tick number `i` is built from draw number `i` of the
engine and reading number `i` of the clock. -/
theorem iterations_fst {σ : Type} (L : Library σ) (clk : Nat → Int) (n : Nat) :
    ∀ w : World σ, (iterations L clk n w).1 =
      (List.range n).map (fun i =>
        tick_of (L.uniform_real d6800 d6900 (engine_after L i w.rng)).1 (clk (w.reads + i))) := by
  induction n with
  | zero => intro w; rfl
  | succ n ih =>
      intro w
      simp only [iterations, ih, loop_body_fst, loop_body_snd, List.range_succ_eq_map,
        List.map_cons, List.map_map, engine_after, Nat.add_zero]
      congr 1
      apply List.map_congr_left
      intro i _
      simp only [Function.comp, engine_after, Nat.succ_eq_add_one]
      congr 2
      omega

/-- The state after `n` iterations. -/
theorem iterations_snd {σ : Type} (L : Library σ) (clk : Nat → Int) (n : Nat) :
    ∀ w : World σ, (iterations L clk n w).2 =
      { rng := engine_after L n w.rng,
        reads := w.reads + n,
        out := w.out ++ rendered L (iterations L clk n w).1,
        slept := w.slept + 50 * n } := by
  induction n with
  | zero =>
      intro w
      simp [iterations, engine_after, rendered]
  | succ n ih =>
      intro w
      simp only [iterations, ih, loop_body_snd, engine_after, rendered, String.append_assoc]
      congr 1 <;> omega

theorem iterations_length {σ : Type} (L : Library σ) (clk : Nat → Int) (n : Nat) (w : World σ) :
    (iterations L clk n w).1.length = n := by
  rw [iterations_fst, List.length_map, List.length_range]

/-! ## Lines of the output -/

theorem split_lines_line (l : List Char) (h : '\n' ∉ l) : ∀ (cur rest : List Char),
    split_lines cur (l ++ '\n' :: rest) =
      ((cur.reverse ++ l) :: (split_lines [] rest).1, (split_lines [] rest).2) := by
  induction l with
  | nil =>
      intro cur rest
      simp [split_lines]
  | cons c l ih =>
      intro cur rest
      have hc : c ≠ '\n' := fun e => h (by simp [e])
      have hl : '\n' ∉ l := fun e => h (List.mem_cons_of_mem _ e)
      show split_lines cur (c :: (l ++ '\n' :: rest)) = _
      rw [split_lines, if_neg hc, ih hl]
      simp

theorem line_text_no_newline {σ : Type} (L : Library σ)
    (hr : ∀ d : Double, '\n' ∉ (L.render d).data) (hdec : ∀ i : Int, '\n' ∉ (L.decimal i).data)
    (t : Tick) : '\n' ∉ (line_text L t).data := by
  have h1 : '\n' ∉ ("SPX | " : String).data := by decide
  have h2 : '\n' ∉ (" / " : String).data := by decide
  have h3 : '\n' ∉ (" | " : String).data := by decide
  simp only [line_text, String.data_append, List.mem_append, not_or]
  exact ⟨⟨⟨⟨⟨⟨⟨h1, hr _⟩, h2⟩, hr _⟩, h3⟩, hr _⟩, h3⟩, hdec _⟩

theorem output_lines_rendered {σ : Type} (L : Library σ)
    (hr : ∀ d : Double, '\n' ∉ (L.render d).data) (hdec : ∀ i : Int, '\n' ∉ (L.decimal i).data)
    (ts : List Tick) :
    output_lines (rendered L ts) = (ts.map (fun t => (line_text L t).data), []) := by
  induction ts with
  | nil => rfl
  | cons t ts ih =>
      have hnl : ("\n" : String).data = ['\n'] := rfl
      unfold output_lines at ih ⊢
      simp only [rendered, String.data_append, hnl, List.append_assoc, List.singleton_append]
      rw [split_lines_line _ (line_text_no_newline L hr hdec t), ih]
      simp

/-! ## Decimal rendering of integers -/

theorem digitChar_ne_newline (d : Nat) : Nat.digitChar d ≠ '\n' := by
  rcases Nat.lt_or_ge d 16 with h | h
  · interval_cases d <;> decide
  · have e : Nat.digitChar d = '*' := by
      unfold Nat.digitChar
      repeat (rw [if_neg (by omega)])
    rw [e]
    decide

theorem toDigitsCore_no_newline (fuel : Nat) : ∀ (n : Nat) (ds : List Char), '\n' ∉ ds →
    '\n' ∉ Nat.toDigitsCore 10 fuel n ds := by
  induction fuel with
  | zero => intro n ds h; simpa [Nat.toDigitsCore] using h
  | succ f ih =>
      intro n ds h
      have hd : '\n' ∉ Nat.digitChar (n % 10) :: ds := by
        intro hm
        rcases List.mem_cons.1 hm with e | e
        · exact digitChar_ne_newline _ e.symm
        · exact h e
      simp only [Nat.toDigitsCore]
      split_ifs
      · exact hd
      · exact ih _ _ hd

theorem nat_toString_no_newline (n : Nat) : '\n' ∉ (toString n).data := by
  show '\n' ∉ (Nat.repr n).data
  simp only [Nat.repr, Nat.toDigits, List.asString]
  exact toDigitsCore_no_newline _ _ _ (by simp)

theorem int_toString_no_newline (i : Int) : '\n' ∉ (toString i).data := by
  cases i with
  | ofNat m => exact nat_toString_no_newline m
  | negSucc m =>
      show '\n' ∉ ("-" ++ toString (Nat.succ m)).data
      simp only [String.data_append, List.mem_append, not_or]
      exact ⟨by decide, nat_toString_no_newline _⟩

theorem sampleLibrary_render_no_newline (d : Double) : '\n' ∉ (sampleLibrary.render d).data := by
  cases d with
  | finite n => exact int_toString_no_newline _
  | inf s => cases s <;> decide
  | nan => decide

theorem engine_after_congr {σ : Type} (L L2 : Library σ)
    (h : L2.uniform_real = L.uniform_real) (i : Nat) :
    ∀ s : σ, engine_after L2 i s = engine_after L i s := by
  induction i with
  | zero => intro s; rfl
  | succ i ih => intro s; simp only [engine_after, h, ih]

theorem main_steps_running {σ : Type} (L : Library σ) (clk : Nat → Int) (n : Nat) :
    (main_steps L clk n).ctl = Control.running := by
  induction n with
  | zero => rfl
  | succ n ih => simp only [main_steps, main_step, ih, loop_condition, if_true]

theorem main_steps_succ {σ : Type} (L : Library σ) (clk : Nat → Int) (n : Nat) :
    main_steps L clk (n + 1) =
      { ctl := Control.running, world := (loop_body L clk (main_steps L clk n).world).2 } := by
  simp only [main_steps, main_step, main_steps_running, loop_condition, if_true]

theorem main_steps_counters {σ : Type} (L : Library σ) (clk : Nat → Int) (n : Nat) :
    (main_steps L clk n).world.reads = n ∧ (main_steps L clk n).world.slept = 50 * n := by
  induction n with
  | zero => exact ⟨rfl, rfl⟩
  | succ n ih =>
      rw [main_steps_succ]
      constructor
      · show (loop_body L clk (main_steps L clk n).world).2.reads = n + 1
        rw [loop_body_snd, ih.1]
      · show (loop_body L clk (main_steps L clk n).world).2.slept = 50 * (n + 1)
        rw [loop_body_snd, ih.2]
        show 50 * n + 50 = 50 * (n + 1)
        omega

/-! ## Claims about the dispatcher and the loop -/

/-- Claim C5: two independent runs, both starting from the engine state seeded with 42, produce
the same sequence of `last`, `bid` and `ask` values for every number `n` of iterations,
whatever the two clocks return and whatever text the two runs write; the price fields of
the tick number `i` are those of `nth_price L i`, a function of `i` only. -/
theorem same_seed_same_prices {σ : Type} (L : Library σ) (clk1 clk2 : Nat → Int)
    (render2 : Double → String) (decimal2 : Int → String) (n : Nat) :
    (iterations L clk1 n (World.init L)).1.map Tick.prices =
      (iterations { L with render := render2, decimal := decimal2 } clk2 n
        (World.init { L with render := render2, decimal := decimal2 })).1.map Tick.prices ∧
    (iterations L clk1 n (World.init L)).1.map Tick.prices =
      (List.range n).map (fun i =>
        (nth_price L i, fsub (nth_price L i) d0_25, fadd (nth_price L i) d0_25)) := by
  have h2 : (iterations L clk1 n (World.init L)).1.map Tick.prices =
      (List.range n).map (fun i =>
        (nth_price L i, fsub (nth_price L i) d0_25, fadd (nth_price L i) d0_25)) := by
    rw [iterations_fst, List.map_map]
    rfl
  refine ⟨?_, h2⟩
  rw [h2, iterations_fst, List.map_map]
  apply List.map_congr_left
  intro i _
  simp only [Function.comp, Tick.prices, tick_of, nth_price, World.init,
    engine_after_congr L { L with render := render2, decimal := decimal2 } rfl]

/-- Claim C6: for every tick `t`, `normalize_and_dispatch` appends to standard output exactly the
text `"SPX | " ++ render t.bid ++ " / " ++ render t.ask ++ " | " ++ render t.last ++ " | "
++ decimal t.ts ++ "\n"`, the fields in the order bid, ask, last, timestamp; it changes
nothing else of the state. -/
theorem dispatch_text {σ : Type} (L : Library σ) (t : Tick) (w : World σ) :
    (normalize_and_dispatch L t w).out =
      w.out ++ ("SPX | " ++ L.render t.bid ++ " / " ++ L.render t.ask ++ " | "
        ++ L.render t.last ++ " | " ++ L.decimal t.ts ++ "\n") ∧
    (normalize_and_dispatch L t w).rng = w.rng ∧
    (normalize_and_dispatch L t w).reads = w.reads ∧
    (normalize_and_dispatch L t w).slept = w.slept := by
  rw [normalize_and_dispatch_eq]
  exact ⟨rfl, rfl, rfl, rfl⟩

/-- Claim C7: for every `n`, given that the renderings of a `double` and of an integer contain no
newline character, after `n` iterations of the loop body the output consists of exactly
`n` newline-terminated lines with nothing after the last newline, and line number `i` is
the text of tick number `i`. -/
theorem one_line_per_iteration {σ : Type} (L : Library σ) (clk : Nat → Int) (n : Nat)
    (hr : ∀ d : Double, '\n' ∉ (L.render d).data)
    (hdec : ∀ i : Int, '\n' ∉ (L.decimal i).data) :
    output_lines (iterations L clk n (World.init L)).2.out =
      ((iterations L clk n (World.init L)).1.map (fun t => (line_text L t).data), []) ∧
    (output_lines (iterations L clk n (World.init L)).2.out).1.length = n := by
  have h : output_lines (iterations L clk n (World.init L)).2.out =
      ((iterations L clk n (World.init L)).1.map (fun t => (line_text L t).data), []) := by
    rw [iterations_snd]
    have e : (World.init L).out ++ rendered L (iterations L clk n (World.init L)).1
        = rendered L (iterations L clk n (World.init L)).1 := by
      apply String.ext
      simp [World.init, String.data_append]
    simp only [e]
    exact output_lines_rendered L hr hdec _
  refine ⟨h, ?_⟩
  rw [h, List.length_map, iterations_length]

/-- Claim C9: under the assumption that successive clock readings never decrease, the timestamps
of the ticks of one run are non-decreasing: tick number `i` carries reading number `i` of
the clock (one reading per tick, in order), so for every `i < j` the `ts` of tick `i` is at
most the `ts` of tick `j`. -/
theorem timestamps_nondecreasing {σ : Type} (L : Library σ) (clk : Nat → Int) (n : Nat)
    (hmono : ∀ a b : Nat, a ≤ b → clk a ≤ clk b) :
    (iterations L clk n (World.init L)).1.map Tick.ts = (List.range n).map clk ∧
    ∀ (i j : Nat) (ti tj : Tick), i < j →
      (iterations L clk n (World.init L)).1[i]? = some ti →
      (iterations L clk n (World.init L)).1[j]? = some tj → ti.ts ≤ tj.ts := by
  have hts : ∀ (i : Nat) (t : Tick), (iterations L clk n (World.init L)).1[i]? = some t →
      t.ts = clk i := by
    intro i t h
    rw [iterations_fst, List.getElem?_map] at h
    rcases hi : (List.range n)[i]? with _ | k
    · rw [hi] at h
      simp at h
    · rw [hi] at h
      have hk : k = i := by
        have := List.getElem?_range (m := i) (n := n) (by
          by_contra hcon
          rw [List.getElem?_eq_none (by simpa using hcon)] at hi
          simp at hi)
        rw [this] at hi
        exact (Option.some.inj hi).symm
      subst hk
      simp only [Option.map_some', Option.some.injEq] at h
      rw [← h]
      simp [tick_of, World.init]
  constructor
  · rw [iterations_fst, List.map_map]
    apply List.map_congr_left
    intro i _
    simp [Function.comp, tick_of, World.init]
  · intro i j ti tj hij hi hj
    rw [hts i ti hi, hts j tj hj]
    exact hmono i j (le_of_lt hij)

/-- Claim C10: the driver loop has the single control state `running` and never leaves it: after
every number of steps control is `running`, and the only transition from a reachable
configuration is generate, then dispatch, then sleep 50 microseconds, back to `running`;
each step takes one clock reading and asks for 50 microseconds of sleep, so successive
configurations are distinct. -/
theorem never_exits {σ : Type} (L : Library σ) (clk : Nat → Int) (n : Nat) :
    (main_steps L clk n).ctl = Control.running ∧
    main_steps L clk (n + 1) =
      { ctl := Control.running,
        world := sleep_for 50 (normalize_and_dispatch L
          (generate_tick L clk (main_steps L clk n).world).1
          (generate_tick L clk (main_steps L clk n).world).2) } ∧
    (main_steps L clk n).ctl ≠ Control.exited ∧
    (main_steps L clk n).world.reads = n ∧
    (main_steps L clk n).world.slept = 50 * n := by
  refine ⟨main_steps_running L clk n, ?_, ?_, (main_steps_counters L clk n).1,
    (main_steps_counters L clk n).2⟩
  · rw [main_steps_succ]
    rfl
  · rw [main_steps_running]
    decide

/-! ## The claims on a concrete run -/

/-- Claim C1 on the first tick of the sample run: the drawn price is a binary64 value of
the draw range, and `ask - bid` is `0.5`. -/
theorem spread_exact_witness :
    (isDouble (sampleLibrary.uniform_real d6800 d6900 42).1 = true ∧
      fle d6800 (sampleLibrary.uniform_real d6800 d6900 42).1 = true ∧
      fle (sampleLibrary.uniform_real d6800 d6900 42).1 d6900 = true) ∧
    fsub (generate_tick sampleLibrary sampleClock (World.init sampleLibrary)).1.ask
      (generate_tick sampleLibrary sampleClock (World.init sampleLibrary)).1.bid = d0_5 :=
  ⟨by decide,
    (spread_exact sampleLibrary sampleClock (World.init sampleLibrary)
      (sampleLibrary.uniform_real d6800 d6900 42).1 rfl (by decide) (by decide)
      (by decide)).2.1⟩

/-- Claim C3 on the first tick of the sample run. -/
theorem bid_le_last_le_ask_witness :
    isDouble (generate_tick sampleLibrary sampleClock (World.init sampleLibrary)).1.last = true ∧
    fle (generate_tick sampleLibrary sampleClock (World.init sampleLibrary)).1.bid
      (generate_tick sampleLibrary sampleClock (World.init sampleLibrary)).1.last = true ∧
    fle (generate_tick sampleLibrary sampleClock (World.init sampleLibrary)).1.last
      (generate_tick sampleLibrary sampleClock (World.init sampleLibrary)).1.ask = true :=
  ⟨by decide,
    (bid_le_last_le_ask sampleLibrary sampleClock (World.init sampleLibrary)
      (by decide) (by decide) (by decide)).1,
    (bid_le_last_le_ask sampleLibrary sampleClock (World.init sampleLibrary)
      (by decide) (by decide) (by decide)).2.1⟩

/-- Claim C4 on the first tick of the sample run, whose canonical draw is `42 * 2^-53`. -/
theorem last_in_range_witness :
    (fle d0 (Double.ofScaled 42 1021) = true ∧ flt (Double.ofScaled 42 1021) d1 = true) ∧
    fle d6800 (generate_tick sampleLibrary sampleClock (World.init sampleLibrary)).1.last = true ∧
    fle (generate_tick sampleLibrary sampleClock (World.init sampleLibrary)).1.last d6900 = true :=
  ⟨by decide,
    (last_in_range sampleLibrary sampleClock (World.init sampleLibrary) (Double.ofScaled 42 1021)
      (by decide) (by decide) (by decide)).1,
    (last_in_range sampleLibrary sampleClock (World.init sampleLibrary) (Double.ofScaled 42 1021)
      (by decide) (by decide) (by decide)).2.1⟩

/-- Claim C8, amended, on two ticks of the sample library: one whose `last` is `6800.0` and
one whose `last` is `6900.0`. -/
theorem boundary_strict_witness :
    (generate_tick sampleLibrary sampleClock
        { rng := 0, reads := 0, out := "", slept := 0 }).1.last = d6800 ∧
    (generate_tick sampleLibrary sampleClock
        { rng := 2 ^ 53 - 1, reads := 0, out := "", slept := 0 }).1.last = d6900 ∧
    flt (generate_tick sampleLibrary sampleClock
        { rng := 0, reads := 0, out := "", slept := 0 }).1.bid
      (generate_tick sampleLibrary sampleClock
        { rng := 0, reads := 0, out := "", slept := 0 }).1.last = true ∧
    flt (generate_tick sampleLibrary sampleClock
        { rng := 2 ^ 53 - 1, reads := 0, out := "", slept := 0 }).1.last
      (generate_tick sampleLibrary sampleClock
        { rng := 2 ^ 53 - 1, reads := 0, out := "", slept := 0 }).1.ask = true :=
  ⟨by decide, by decide,
    (boundary_strict sampleLibrary sampleClock { rng := 0, reads := 0, out := "", slept := 0 }
      (Or.inl (by decide))).1,
    (boundary_strict sampleLibrary sampleClock
      { rng := 2 ^ 53 - 1, reads := 0, out := "", slept := 0 } (Or.inr (by decide))).2.1⟩

/-- Claim C7 on three iterations of the sample run. -/
theorem one_line_per_iteration_witness :
    ((∀ d : Double, '\n' ∉ (sampleLibrary.render d).data) ∧
      (∀ i : Int, '\n' ∉ (sampleLibrary.decimal i).data)) ∧
    (output_lines (iterations sampleLibrary sampleClock 3 (World.init sampleLibrary)).2.out).1.length
      = 3 :=
  ⟨⟨sampleLibrary_render_no_newline, int_toString_no_newline⟩,
    (one_line_per_iteration sampleLibrary sampleClock 3 sampleLibrary_render_no_newline
      int_toString_no_newline).2⟩

/-- Claim C9 on three iterations of the sample run, whose clock is non-decreasing. -/
theorem timestamps_nondecreasing_witness :
    (∀ a b : Nat, a ≤ b → sampleClock a ≤ sampleClock b) ∧
    (iterations sampleLibrary sampleClock 3 (World.init sampleLibrary)).1.map Tick.ts =
      (List.range 3).map sampleClock :=
  ⟨fun a b h => by simp only [sampleClock]; omega,
    (timestamps_nondecreasing sampleLibrary sampleClock 3
      (fun a b h => by simp only [sampleClock]; omega)).1⟩

end FeedEngine
